import Mathlib

/-!
Verification of the gcovr-json-util core engines (diff, uncovered, filter).

The Go sources `pkg/gcovr/diff.go` (diff engine and uncovered engine) and the
data model `types.go` are embedded shallowly below.  Go maps are embedded by
their contents: a lookup in a map built by successive writes is the value of
the last write (last-write-wins), and a map's key set is embedded as the
deduplicated list of written keys.  Go's map iteration order is unspecified;
definitions that iterate over a map take the iteration order as an explicit
parameter (`...With` variants), and the canonical instantiations fix one
order of the key set.  Fallible Go functions returning `(T, error)` are
embedded as `Except String T`.

The filter engine (`ApplyFilter`, `shouldIncludeFunction`,
`normalizeFilePath`) is not among the provided sources - only its tests are -
so it is modelled from the spec, as marked on each of its definitions.
-/

namespace Gcovr

/-- A single line of code with coverage information (`types.go`, `Line`). -/
structure Line where
  lineNumber : Int
  functionName : String
  count : Int
deriving DecidableEq, Repr

/-- A function entry of the report (`types.go`, `Function`).  The
`blocks_percent` field (a float) is pass-through data unused by the core and
is omitted from the embedding. -/
structure Function where
  name : String
  demangledName : String
  lineNo : Int
  executionCount : Int
  pos : List String
deriving DecidableEq, Repr

/-- A source file of the report (`types.go`, `File`). -/
structure File where
  filePath : String
  lines : List Line
  functions : List Function
deriving DecidableEq, Repr

/-- A parsed gcovr report (`types.go`, `GcovrReport`). -/
structure GcovrReport where
  formatVersion : String
  files : List File
deriving DecidableEq, Repr

/-- Coverage increase for one function (`types.go`,
`FunctionCoverageIncrease`). -/
structure FunctionCoverageIncrease where
  file : String
  functionName : String
  demangledName : String
  linesIncreased : Nat
  totalLines : Nat
  increasedLineNumbers : List Int
  oldCoveredLines : Nat
  newCoveredLines : Nat
deriving DecidableEq, Repr

/-- All coverage increases between two reports (`types.go`,
`CoverageIncreaseReport`). -/
structure CoverageIncreaseReport where
  increases : List FunctionCoverageIncrease
deriving DecidableEq, Repr

/-- Uncovered lines of one function (`types.go`, `FunctionUncovered`). -/
structure FunctionUncovered where
  functionName : String
  demangledName : String
  uncoveredLineNumbers : List Int
  totalLines : Nat
  coveredLines : Nat
deriving DecidableEq, Repr

/-- Uncovered functions of one file (`types.go`, `FileUncovered`). -/
structure FileUncovered where
  filePath : String
  uncoveredFunctions : List FunctionUncovered
deriving DecidableEq, Repr

/-- Report of all uncovered lines grouped by file (`types.go`,
`UncoveredReport`). -/
structure UncoveredReport where
  files : List FileUncovered
deriving DecidableEq, Repr

/-! ### Go map embedding helpers -/

/-- Value of `buildLineCoverageMap(file)[f][ln]` (diff.go:146-157) as an
optional lookup: the map stores, for each `(functionName, lineNumber)` pair,
the count of the last such line written (Go map last-write-wins). -/
def coverageAt (lines : List Line) (f : String) (ln : Int) : Option Int :=
  ((lines.filter (fun l => l.functionName == f && l.lineNumber == ln)).map
    (fun l => l.count)).getLast?

/-- Count looked up in a line-coverage map, with the Go zero-value `0` for a
missing function or line key (diff.go:100-103). -/
def countAt (lines : List Line) (f : String) (ln : Int) : Int :=
  (coverageAt lines f ln).getD 0

/-- Key set of `buildLineCoverageMap(file)` (the function names), as a
deduplicated list.  The order is a canonical choice for Go's unspecified map
iteration order. -/
def funcKeys (lines : List Line) : List String :=
  (lines.map (fun l => l.functionName)).dedup

/-- Key set of the inner map `buildLineCoverageMap(file)[f]` (the line
numbers of function `f`), deduplicated. -/
def lineNumKeys (lines : List Line) (f : String) : List Int :=
  ((lines.filter (fun l => l.functionName == f)).map
    (fun l => l.lineNumber)).dedup

/-- Lookup in `buildFunctionNameMap(file)` (diff.go:160-168): the demangled
name of the last `Function` entry whose mangled name is `name`. -/
def demangledLookup (fns : List Function) (name : String) : Option String :=
  ((fns.filter (fun fn => fn.name == name)).map
    (fun fn => fn.demangledName)).getLast?

/-- Demangled-name resolution used by all three record builders
(diff.go:121-125, 56-61, 302-306): the Go map lookup yields `""` for a
missing key, and an empty demangled name falls back to the mangled name. -/
def resolveDemangled (fns : List Function) (funcName : String) : String :=
  let d := (demangledLookup fns funcName).getD ""
  if d == "" then funcName else d

/-- Total number of lines of a function, `getTotalFunctionLines`
(diff.go:171-179). -/
def getTotalFunctionLines (file : File) (funcName : String) : Nat :=
  (file.lines.filter (fun l => l.functionName == funcName)).length

/-! ### Diff engine (diff.go) -/

/-- The newly-covered test of diff.go:116: base count `0` (or function/line
absent from base) and new count positive. -/
def increasedPred (baseLines newLines : List Line) (f : String) (ln : Int) :
    Bool :=
  countAt baseLines f ln == 0 && decide (0 < countAt newLines f ln)

/-- The newly-covered line numbers of one function, over the new map's key
set (diff.go:99-119). -/
def increasedFor (baseLines newLines : List Line) (f : String) : List Int :=
  (lineNumKeys newLines f).filter (increasedPred baseLines newLines f)

/-- Count of new-map line numbers of `f` whose base count is positive: the
`oldCoveredCount` accumulated at diff.go:106-108. -/
def oldCoveredFor (baseLines newLines : List Line) (f : String) : Nat :=
  ((lineNumKeys newLines f).filter (fun ln =>
    decide (0 < countAt baseLines f ln))).length

/-- Count of new-map line numbers of `f` whose new count is positive: the
`newCoveredCount` accumulated at diff.go:111-113. -/
def newCoveredFor (newLines : List Line) (f : String) : Nat :=
  ((lineNumKeys newLines f).filter (fun ln =>
    decide (0 < countAt newLines f ln))).length

/-- Body of the per-function loop of `compareFunctions` (diff.go:92-139),
iterating the inner map in the order `lineOrder`; returns the emitted record,
or `none` when no line's coverage increased. -/
def compareOneFunction (baseFile newFile : File) (lineOrder : List Int)
    (funcName : String) : Option FunctionCoverageIncrease :=
  let increasedLines :=
    lineOrder.filter (increasedPred baseFile.lines newFile.lines funcName)
  let oldCoveredCount :=
    (lineOrder.filter (fun ln =>
      decide (0 < countAt baseFile.lines funcName ln))).length
  let newCoveredCount :=
    (lineOrder.filter (fun ln =>
      decide (0 < countAt newFile.lines funcName ln))).length
  if increasedLines.isEmpty then none
  else some
    { file := newFile.filePath
      functionName := funcName
      demangledName := resolveDemangled newFile.functions funcName
      linesIncreased := increasedLines.length
      totalLines := getTotalFunctionLines newFile funcName
      increasedLineNumbers := increasedLines
      oldCoveredLines := oldCoveredCount
      newCoveredLines := newCoveredCount }

/-- `compareFunctions` (diff.go:81-143) with the map iteration orders made
explicit: `keyOrder` is the walk over the outer map's function keys and
`lineOrders f` the walk over the inner map of `f`. -/
def compareFunctionsWith (baseFile newFile : File) (keyOrder : List String)
    (lineOrders : String → List Int) : List FunctionCoverageIncrease :=
  keyOrder.filterMap (fun f =>
    compareOneFunction baseFile newFile (lineOrders f) f)

/-- `compareFunctions` (diff.go:81-143) at the canonical iteration orders. -/
def compareFunctions (baseFile newFile : File) :
    List FunctionCoverageIncrease :=
  compareFunctionsWith baseFile newFile (funcKeys newFile.lines)
    (lineNumKeys newFile.lines)

/-- The line numbers appended to `funcLines[f]` in `processNewFile`
(diff.go:45-49): line numbers of the lines of `f` with positive count, in
slice order, duplicates kept. -/
def coveredLineNumbers (lines : List Line) (f : String) : List Int :=
  (lines.filter (fun l => l.functionName == f && decide (0 < l.count))).map
    (fun l => l.lineNumber)

/-- Key set of the `funcLines` map of `processNewFile`: the functions with at
least one covered line. -/
def coveredFuncKeys (lines : List Line) : List String :=
  ((lines.filter (fun l => decide (0 < l.count))).map
    (fun l => l.functionName)).dedup

/-- Body of the per-function loop of `processNewFile` (diff.go:57-75); the
`none` branch is unreachable for keys of `funcLines`, whose line lists are
nonempty by construction. -/
def processNewFileRecord (file : File) (funcName : String) :
    Option FunctionCoverageIncrease :=
  let lineNumbers := coveredLineNumbers file.lines funcName
  if lineNumbers.isEmpty then none
  else some
    { file := file.filePath
      functionName := funcName
      demangledName := resolveDemangled file.functions funcName
      linesIncreased := lineNumbers.length
      totalLines := getTotalFunctionLines file funcName
      increasedLineNumbers := lineNumbers
      oldCoveredLines := 0
      newCoveredLines := lineNumbers.length }

/-- `processNewFile` (diff.go:38-78) with the map iteration order made
explicit. -/
def processNewFileWith (file : File) (keyOrder : List String) :
    List FunctionCoverageIncrease :=
  keyOrder.filterMap (processNewFileRecord file)

/-- `processNewFile` (diff.go:38-78) at the canonical iteration order. -/
def processNewFile (file : File) : List FunctionCoverageIncrease :=
  processNewFileWith file (coveredFuncKeys file.lines)

/-- Lookup in `baseFileMap` (diff.go:15-18): the last base file with the
given path (Go map last-write-wins). -/
def baseFileLookup (files : List File) (path : String) : Option File :=
  (files.filter (fun f => f.filePath == path)).getLast?

/-- The flat increase list of `ComputeCoverageIncrease` (diff.go:21-32) with
the per-file map iteration orders made explicit. -/
def computeIncreasesWith (baseReport newReport : GcovrReport)
    (ko : File → List String) (lo : File → String → List Int)
    (pk : File → List String) : List FunctionCoverageIncrease :=
  newReport.files.flatMap (fun newFile =>
    match baseFileLookup baseReport.files newFile.filePath with
    | none => processNewFileWith newFile (pk newFile)
    | some baseFile =>
        compareFunctionsWith baseFile newFile (ko newFile) (lo newFile))

/-- The flat increase list of `ComputeCoverageIncrease` at the canonical
iteration orders. -/
def computeIncreases (baseReport newReport : GcovrReport) :
    List FunctionCoverageIncrease :=
  computeIncreasesWith baseReport newReport (fun nf => funcKeys nf.lines)
    (fun nf => lineNumKeys nf.lines) (fun nf => coveredFuncKeys nf.lines)

/-- `ComputeCoverageIncrease` (diff.go:9-35); the Go function's error result
is always `nil`, embedded as `Except.ok`. -/
def ComputeCoverageIncrease (baseReport newReport : GcovrReport) :
    Except String CoverageIncreaseReport :=
  .ok { increases := computeIncreases baseReport newReport }

/-! ### Uncovered engine (diff.go, second compilation unit)

The first pass of `FindUncoveredLines` (diff.go:230-251) executes
`uncoveredMap[file.FilePath] = make(...)` and
`funcMetadata[file.FilePath] = make(...)` for every file, so when two files
share a path the entries of the earlier file are discarded: the uncovered
lines and function metadata of a path come from the LAST file with that
path.  The `fileObj` scan of the second pass (diff.go:272-278) breaks on the
FIRST file with the path, so the `totalLines`/`coveredLines` statistics come
from the first such file. -/

/-- Last file of the report with the given path, governing `uncoveredMap`
and `funcMetadata` (diff.go:230-251). -/
def lastFileWith (files : List File) (path : String) : Option File :=
  (files.filter (fun f => f.filePath == path)).getLast?

/-- First file of the report with the given path, the `fileObj` of
diff.go:272-278. -/
def firstFileWith (files : List File) (path : String) : Option File :=
  (files.filter (fun f => f.filePath == path)).head?

/-- The entries appended to `uncoveredMap[path][f]` (diff.go:240-250): line
numbers of the lines of `f` with count `0`, in slice order. -/
def uncoveredLinesFor (lines : List Line) (f : String) : List Int :=
  (lines.filter (fun l => l.functionName == f && l.count == 0)).map
    (fun l => l.lineNumber)

/-- Key set of `uncoveredMap[path]`: the functions with at least one
count-`0` line, deduplicated; the order is the canonical choice for Go's
unspecified map iteration order (no claim depends on it). -/
def uncoveredFuncKeys (lines : List Line) : List String :=
  ((lines.filter (fun l => l.count == 0)).map
    (fun l => l.functionName)).dedup

/-- One `FunctionUncovered` record (diff.go:284-318): statistics are counted
over `statsLines` (the first file with the path), uncovered line numbers and
demangled names come from `lastFile` (the last file with the path), and
`sort.Ints` is embedded as insertion sort. -/
def mkFunctionUncovered (statsLines : List Line) (lastFile : File)
    (f : String) : FunctionUncovered :=
  { functionName := f
    demangledName := resolveDemangled lastFile.functions f
    uncoveredLineNumbers :=
      List.insertionSort (· ≤ ·) (uncoveredLinesFor lastFile.lines f)
    totalLines := (statsLines.filter (fun l => l.functionName == f)).length
    coveredLines := (statsLines.filter (fun l =>
      l.functionName == f && decide (0 < l.count))).length }

/-- One `FileUncovered` record of the second pass (diff.go:263-323);
`none` when the path has no file or no uncovered function, in which case the
path is not emitted. -/
def mkFileUncovered (files : List File) (path : String) :
    Option FileUncovered :=
  match lastFileWith files path, firstFileWith files path with
  | some lastF, some statsF =>
      if ((uncoveredFuncKeys lastF.lines).map
          (mkFunctionUncovered statsF.lines lastF)).isEmpty then none
      else some { filePath := path
                  uncoveredFunctions := (uncoveredFuncKeys lastF.lines).map
                    (mkFunctionUncovered statsF.lines lastF) }
  | _, _ => none

/-- The file list of `FindUncoveredLines` (diff.go:218-326): the distinct
file paths, sorted (`sort.Strings`, embedded as insertion sort on the string
order), each mapped to its `FileUncovered` record; the source drops the
paths with empty uncovered maps before sorting, which is equivalent to the
`filterMap` over the sorted paths used here. -/
def FindUncoveredLinesCore (report : GcovrReport) : UncoveredReport :=
  { files :=
      (List.insertionSort (· ≤ ·)
        ((report.files.map (fun f => f.filePath)).dedup)).filterMap
        (mkFileUncovered report.files) }

/-- `FindUncoveredLines` (diff.go:218-326); the Go function's error result
is always `nil`, embedded as `Except.ok`. -/
def FindUncoveredLines (report : GcovrReport) :
    Except String UncoveredReport :=
  .ok (FindUncoveredLinesCore report)

/-! ### Filter engine (modelled from the spec)

The filter engine's source file is not among the provided sources; only its
tests (`TestApplyFilter`, `TestShouldIncludeFunction`,
`TestNormalizeFilePath`) are.  The definitions below are modelled from spec
section 4.2 and validated against those test vectors. -/

/-- Modelled from the spec: one target of a filter specification (spec
section 3, "Filter Specification"). -/
structure TargetFile where
  file : String
  functions : List String
deriving DecidableEq, Repr

/-- Modelled from the spec: a filter specification, an ordered list of
targets (the YAML `compiler` section is inert to the core and omitted). -/
structure FilterConfig where
  targets : List TargetFile
deriving DecidableEq, Repr

/-- Modelled from the spec: the base identifier of a demangled name, the
substring preceding its first parameter-list delimiter, or the whole name
when there is none (spec section 4.2). -/
def baseIdentifier (demangled : String) : String :=
  ⟨demangled.data.takeWhile (fun c => c ≠ '(')⟩

/-- Modelled from the spec: the three-way function-matching test
`shouldIncludeFunction` of spec section 4.2 - the allowed set must contain
the mangled name verbatim, the full demangled name verbatim, or the
demangled name's base identifier; matching is exact, case-sensitive string
equality. -/
def shouldIncludeFunction (demangledName mangledName : String)
    (allowedFunctions : List String) : Bool :=
  allowedFunctions.contains mangledName ||
  allowedFunctions.contains demangledName ||
  allowedFunctions.contains (baseIdentifier demangledName)

/-- Modelled from the spec: path normalization of spec section 4.2 -
directory separators are converted to a canonical single form and `.`/`..`
segments collapsed (the source's `filepath.ToSlash(filepath.Clean(path))`,
per `TestNormalizeFilePath`). -/
def normalizeFilePath (p : String) : String :=
  let q := (p.replace "\\" "/")
  let isAbs := q.startsWith "/"
  let segs := (q.splitOn "/").filter (fun s => s ≠ "" && s ≠ ".")
  let step : List String → String → List String := fun stack seg =>
    if seg = ".." then
      match stack with
      | [] => if isAbs then [] else [".."]
      | top :: rest => if top = ".." then seg :: stack else rest
    else seg :: stack
  let body := String.intercalate "/" (segs.foldl step []).reverse
  if isAbs then "/" ++ body else if body = "" then "." else body

/-- Modelled from the spec: the final path segment of a normalized path,
used for bare-filename matching (spec section 4.2). -/
def pathBasename (p : String) : String :=
  ((normalizeFilePath p).splitOn "/").getLastD ""

/-- Modelled from the spec: the file-matching policy of spec section 4.2 - a
report file matches a target when their normalized full paths are equal or
their base filenames are equal. -/
def fileMatchesTarget (filePath : String) (t : TargetFile) : Bool :=
  normalizeFilePath filePath == normalizeFilePath t.file ||
  pathBasename filePath == pathBasename t.file

/-- Modelled from the spec: reduction of one file under a filter (spec
section 4.2) - functions are tested directly, lines are tested through the
function entry joined by mangled name (a line with no function entry is
excluded), and a file retaining zero functions is dropped. -/
def filterFile (targets : List TargetFile) (file : File) : Option File :=
  match targets.find? (fileMatchesTarget file.filePath) with
  | none => none
  | some t =>
      let functions := file.functions.filter (fun fn =>
        shouldIncludeFunction fn.demangledName fn.name t.functions)
      let lines := file.lines.filter (fun l =>
        match file.functions.find? (fun fn => fn.name == l.functionName) with
        | some fn => shouldIncludeFunction fn.demangledName fn.name t.functions
        | none => false)
      if functions.isEmpty then none
      else some { file with lines := lines, functions := functions }

/-- Modelled from the spec: `ApplyFilter` (spec section 4.2) - an absent
specification or one with zero targets is a pass-through returning the
input report unchanged; otherwise non-matching files are dropped and
matching files reduced, with the format-version field copied through. -/
def ApplyFilter (report : GcovrReport) (filterConfig : Option FilterConfig) :
    GcovrReport :=
  match filterConfig with
  | none => report
  | some cfg =>
      if cfg.targets.isEmpty then report
      else
        { formatVersion := report.formatVersion
          files := report.files.filterMap (filterFile cfg.targets) }

/-- Content projection of an increase record: every field, with the
newly-covered line numbers taken as a finite set.  Two records with equal
projections differ at most in the order of `increasedLineNumbers`. -/
def contentOf (r : FunctionCoverageIncrease) :
    String × String × String × Nat × Nat × Finset Int × Nat × Nat :=
  (r.file, r.functionName, r.demangledName, r.linesIncreased, r.totalLines,
   r.increasedLineNumbers.toFinset, r.oldCoveredLines, r.newCoveredLines)

/-! ### Helper lemmas -/

/-- A positive looked-up count means the line number is a key of the new
line-coverage map. -/
theorem mem_lineNumKeys_of_pos {lines : List Line} {f : String} {ln : Int}
    (h : 0 < countAt lines f ln) : ln ∈ lineNumKeys lines f := by
  by_contra hmem
  have hfil :
      lines.filter (fun l => l.functionName == f && l.lineNumber == ln) = [] := by
    rw [List.filter_eq_nil_iff]
    intro a ha hpa
    simp only [Bool.and_eq_true, beq_iff_eq] at hpa
    exact hmem (by
      unfold lineNumKeys
      rw [List.mem_dedup]
      exact List.mem_map.mpr
        ⟨a, List.mem_filter.mpr ⟨ha, by simp [hpa.1]⟩, hpa.2⟩)
  unfold countAt coverageAt at h
  rw [hfil] at h
  simp at h

/-- A function absent from the outer map's key set has an empty inner key
set. -/
theorem lineNumKeys_eq_nil_of_not_mem {lines : List Line} {f : String}
    (h : f ∉ funcKeys lines) : lineNumKeys lines f = [] := by
  unfold lineNumKeys
  have hfil : lines.filter (fun l => l.functionName == f) = [] := by
    rw [List.filter_eq_nil_iff]
    intro a ha hpa
    exact h (by
      unfold funcKeys
      rw [List.mem_dedup]
      exact List.mem_map.mpr ⟨a, ha, by simpa using hpa⟩)
  rw [hfil]
  rfl

/-- Filtering the records built over a duplicate-free key list by one key
value keeps exactly the record built from that key. -/
theorem filterMap_filter_eq_key {β : Type _} (keys : List String)
    (hnd : keys.Nodup) (F : String → Option β) (name : β → String)
    (hname : ∀ a b, F a = some b → name b = a) (x : String) :
    (keys.filterMap F).filter (fun r => name r == x) =
      if x ∈ keys then (F x).toList else [] := by
  induction keys with
  | nil => simp
  | cons k ks ih =>
    obtain ⟨hk, hks⟩ := List.nodup_cons.mp hnd
    have ihh := ih hks
    by_cases hxk : x = k
    · subst hxk
      cases hFx : F x with
      | none =>
        simp only [List.filterMap_cons, hFx, ihh]
        simp [hk]
      | some b =>
        have hb := hname x b hFx
        simp only [List.filterMap_cons, hFx, List.filter_cons, hb, ihh]
        simp [hk]
    · cases hFk : F k with
      | none =>
        simp only [List.filterMap_cons, hFk, ihh]
        simp [hxk, Ne.symm hxk]
      | some b =>
        have hb := hname k b hFk
        simp only [List.filterMap_cons, hFk, List.filter_cons, hb, ihh]
        simp [hxk, Ne.symm hxk]

/-! ### Claim theorems -/

/-- C9: the diff and uncovered engines have no failure path: both return a
`nil` error on every input, and an input with no files yields an empty - not
failing - result. -/
theorem engines_never_fail (baseReport newReport report : GcovrReport)
    (v : String) :
    (∃ r, ComputeCoverageIncrease baseReport newReport = Except.ok r)
    ∧ (∃ u, FindUncoveredLines report = Except.ok u)
    ∧ ComputeCoverageIncrease baseReport ⟨v, []⟩ = Except.ok ⟨[]⟩
    ∧ FindUncoveredLines ⟨v, []⟩ = Except.ok ⟨[]⟩ :=
  ⟨⟨_, rfl⟩, ⟨_, rfl⟩, rfl, rfl⟩

/-- C7: `ApplyFilter` with an absent filter specification or one with zero
targets returns the input report structurally unchanged. -/
theorem applyFilter_passthrough (report : GcovrReport) :
    ApplyFilter report none = report ∧ ApplyFilter report (some ⟨[]⟩) = report :=
  ⟨rfl, rfl⟩

/-- C6: a function is retained by the filter's function test iff the allowed
set contains the mangled name verbatim, the full demangled name verbatim, or
the demangled name's base identifier, by exact case-sensitive string
equality; validated against the `TestShouldIncludeFunction` vectors. -/
theorem shouldIncludeFunction_spec (d m : String) (allowed : List String) :
    (shouldIncludeFunction d m allowed = true ↔
      m ∈ allowed ∨ d ∈ allowed ∨ baseIdentifier d ∈ allowed)
    ∧ shouldIncludeFunction "foo()" "_Z3foov" ["foo"] = true
    ∧ shouldIncludeFunction "foo()" "_Z3foov" ["foo()"] = true
    ∧ shouldIncludeFunction "foo()" "_Z3foov" ["_Z3foov"] = true
    ∧ shouldIncludeFunction "foo()" "_Z3foov" ["bar"] = false
    ∧ shouldIncludeFunction "calculate(int, double)" "_Z9calculateid"
        ["calculate"] = true
    ∧ shouldIncludeFunction "foo()" "_Z3foov" [] = false
    ∧ baseIdentifier "calculate(int, double)" = "calculate" := by
  refine ⟨?_, by decide, by decide, by decide, by decide, by decide,
    by decide, by decide⟩
  simp [shouldIncludeFunction, List.contains, List.elem_iff, or_assoc]

/-- The record emitted for a function key carries that key as its function
name (`compareOneFunction`). -/
theorem compareOneFunction_name {baseFile newFile : File}
    {lineOrder : List Int} {a : String} {b : FunctionCoverageIncrease}
    (hab : compareOneFunction baseFile newFile lineOrder a = some b) :
    b.functionName = a := by
  simp only [compareOneFunction] at hab
  split at hab
  · exact absurd hab (by simp)
  · cases hab
    rfl

/-- The record emitted for a function key carries that key as its function
name (`processNewFileRecord`). -/
theorem processNewFileRecord_name {file : File} {a : String}
    {b : FunctionCoverageIncrease}
    (hab : processNewFileRecord file a = some b) : b.functionName = a := by
  simp only [processNewFileRecord] at hab
  split at hab
  · exact absurd hab (by simp)
  · cases hab
    rfl

/-- C1: for a file present in both reports, the diff engine emits exactly
one record per function with a nonempty newly-covered set; a line number
occurs in that record's `IncreasedLineNumbers` exactly once when its base
count is zero (or absent) and its new count positive, and zero times
otherwise; `OldCoveredLines` and `NewCoveredLines` count the new-map line
numbers with positive base count and positive new count respectively. -/
theorem compareFunctions_record_spec (baseFile newFile : File) (f : String) :
    ((compareFunctions baseFile newFile).filter
        (fun r => r.functionName == f) =
      if (increasedFor baseFile.lines newFile.lines f).isEmpty then []
      else [{ file := newFile.filePath
              functionName := f
              demangledName := resolveDemangled newFile.functions f
              linesIncreased := (increasedFor baseFile.lines newFile.lines f).length
              totalLines := getTotalFunctionLines newFile f
              increasedLineNumbers := increasedFor baseFile.lines newFile.lines f
              oldCoveredLines := oldCoveredFor baseFile.lines newFile.lines f
              newCoveredLines := newCoveredFor newFile.lines f }])
    ∧ ∀ ln : Int, (increasedFor baseFile.lines newFile.lines f).count ln =
        if countAt baseFile.lines f ln = 0 ∧ 0 < countAt newFile.lines f ln
        then 1 else 0 := by
  constructor
  · have hkey := filterMap_filter_eq_key (funcKeys newFile.lines)
      (List.nodup_dedup _)
      (fun g => compareOneFunction baseFile newFile (lineNumKeys newFile.lines g) g)
      (fun r => r.functionName)
      (fun a b hab => compareOneFunction_name hab) f
    unfold compareFunctions compareFunctionsWith
    rw [hkey]
    by_cases hf : f ∈ funcKeys newFile.lines
    · rw [if_pos hf]
      by_cases hie : ((lineNumKeys newFile.lines f).filter
          (increasedPred baseFile.lines newFile.lines f)).isEmpty
      · simp [compareOneFunction, increasedFor, hie]
      · simp [compareOneFunction, increasedFor, hie, oldCoveredFor,
          newCoveredFor]
    · rw [if_neg hf]
      have h0 : lineNumKeys newFile.lines f = [] :=
        lineNumKeys_eq_nil_of_not_mem hf
      simp [increasedFor, h0]
  · intro ln
    have hnd : (increasedFor baseFile.lines newFile.lines f).Nodup :=
      (List.nodup_dedup _).filter _
    by_cases hmem : ln ∈ increasedFor baseFile.lines newFile.lines f
    · have h1 : (increasedFor baseFile.lines newFile.lines f).count ln = 1 := by
        have hle := List.nodup_iff_count_le_one.mp hnd ln
        have hge := List.count_pos_iff.mpr hmem
        omega
      rw [h1, if_pos]
      have hp := (List.mem_filter.mp hmem).2
      simpa [increasedPred] using hp
    · rw [List.count_eq_zero.mpr hmem, if_neg]
      rintro ⟨hb, hn⟩
      exact hmem (List.mem_filter.mpr
        ⟨mem_lineNumKeys_of_pos hn, by simp [increasedPred, hb, hn]⟩)

/-- A function is a key of the `funcLines` map of `processNewFile` iff it
has at least one covered line. -/
theorem mem_coveredFuncKeys_iff {lines : List Line} {f : String} :
    f ∈ coveredFuncKeys lines ↔ coveredLineNumbers lines f ≠ [] := by
  unfold coveredFuncKeys coveredLineNumbers
  rw [List.mem_dedup]
  constructor
  · intro hmem
    rw [Ne, List.map_eq_nil_iff, List.filter_eq_nil_iff]
    intro hall
    obtain ⟨a, ha, hfa⟩ := List.mem_map.mp hmem
    obtain ⟨ha2, hpa⟩ := List.mem_filter.mp ha
    exact hall a ha2 (by simp_all)
  · intro hne
    have hfl : lines.filter
        (fun l => l.functionName == f && decide (0 < l.count)) ≠ [] := by
      intro hc
      exact hne (by rw [hc]; rfl)
    obtain ⟨a, ha⟩ := List.exists_mem_of_ne_nil _ hfl
    obtain ⟨ha2, hpa⟩ := List.mem_filter.mp ha
    simp only [Bool.and_eq_true, beq_iff_eq, decide_eq_true_eq] at hpa
    exact List.mem_map.mpr
      ⟨a, List.mem_filter.mpr ⟨ha2, by simp [hpa.2]⟩, hpa.1⟩

/-- C3: a file of the new report whose path is absent from the base file
index contributes exactly the `processNewFile` records, and among them every
function with at least one covered line yields exactly one record, with zero
old coverage, new coverage equal to its number of covered lines, and all its
covered line numbers as the newly-covered list; a function with no covered
line yields none. -/
theorem processNewFile_record_spec (base : GcovrReport) (v : String)
    (pre post : List File) (file : File) (f : String)
    (habs : baseFileLookup base.files file.filePath = none) :
    computeIncreases base ⟨v, pre ++ file :: post⟩ =
      computeIncreases base ⟨v, pre⟩ ++ processNewFile file ++
        computeIncreases base ⟨v, post⟩
    ∧ ((processNewFile file).filter (fun r => r.functionName == f) =
        if (coveredLineNumbers file.lines f).isEmpty then []
        else [{ file := file.filePath
                functionName := f
                demangledName := resolveDemangled file.functions f
                linesIncreased := (coveredLineNumbers file.lines f).length
                totalLines := getTotalFunctionLines file f
                increasedLineNumbers := coveredLineNumbers file.lines f
                oldCoveredLines := 0
                newCoveredLines := (coveredLineNumbers file.lines f).length }]) := by
  constructor
  · unfold computeIncreases computeIncreasesWith
    simp only [List.flatMap_append, List.flatMap_cons, habs, List.append_assoc]
    rfl
  · have hkey := filterMap_filter_eq_key (coveredFuncKeys file.lines)
      (List.nodup_dedup _) (processNewFileRecord file)
      (fun r => r.functionName)
      (fun a b hab => processNewFileRecord_name hab) f
    unfold processNewFile processNewFileWith
    rw [hkey]
    by_cases hcc : coveredLineNumbers file.lines f = []
    · rw [if_neg (fun hmem => (mem_coveredFuncKeys_iff.mp hmem) hcc)]
      simp [hcc]
    · rw [if_pos (mem_coveredFuncKeys_iff.mpr hcc)]
      simp [processNewFileRecord, hcc]

/-- Witness for C3: a base report without the file `n.cpp` and a new report
containing it; the function `f` with one covered line yields exactly one
record. -/
theorem processNewFile_record_spec_witness :
    ((processNewFile ⟨"n.cpp", [⟨1, "f", 1⟩, ⟨2, "f", 0⟩], []⟩).filter
      (fun r => r.functionName == "f")).length = 1 := by
  have h := (processNewFile_record_spec ⟨"0.5", []⟩ "0.5" [] []
    ⟨"n.cpp", [⟨1, "f", 1⟩, ⟨2, "f", 0⟩], []⟩ "f" rfl).2
  rw [h]
  decide

/-- The record emitted for a function key resolves its demangled name from
the new file's function list (`compareOneFunction`). -/
theorem compareOneFunction_demangled {baseFile newFile : File}
    {lineOrder : List Int} {a : String} {b : FunctionCoverageIncrease}
    (hab : compareOneFunction baseFile newFile lineOrder a = some b) :
    b.demangledName = resolveDemangled newFile.functions a := by
  simp only [compareOneFunction] at hab
  split at hab
  · exact absurd hab (by simp)
  · cases hab
    rfl

/-- The record emitted for a function key resolves its demangled name from
the file's function list (`processNewFileRecord`). -/
theorem processNewFileRecord_demangled {file : File} {a : String}
    {b : FunctionCoverageIncrease}
    (hab : processNewFileRecord file a = some b) :
    b.demangledName = resolveDemangled file.functions a := by
  simp only [processNewFileRecord] at hab
  split at hab
  · exact absurd hab (by simp)
  · cases hab
    rfl

/-- C10: every record of the three engines resolves its demangled name as
the demangled name of the last function entry whose mangled name matches the
record's function name, falling back to the mangled name when there is no
entry or the entry's demangled name is the empty string; for the uncovered
engine the function list is the one of the last input file with the record's
path. -/
theorem resolveDemangled_spec (fns : List Function) (name : String)
    (baseFile newFile file : File) (report : GcovrReport) :
    (resolveDemangled fns name =
      match (fns.filter (fun fn => fn.name == name)).getLast? with
      | none => name
      | some fn =>
          if fn.demangledName == "" then name else fn.demangledName)
    ∧ resolveDemangled [⟨"m", "", 0, 0, []⟩] "m" = "m"
    ∧ ((compareFunctions baseFile newFile).all (fun r =>
        r.demangledName ==
          resolveDemangled newFile.functions r.functionName)) = true
    ∧ ((processNewFile file).all (fun r =>
        r.demangledName ==
          resolveDemangled file.functions r.functionName)) = true
    ∧ ((FindUncoveredLinesCore report).files.all (fun fu =>
        match lastFileWith report.files fu.filePath with
        | none => false
        | some lastF => fu.uncoveredFunctions.all (fun fr =>
            fr.demangledName ==
              resolveDemangled lastF.functions fr.functionName))) = true := by
  refine ⟨?_, by decide, ?_, ?_, ?_⟩
  · unfold resolveDemangled demangledLookup
    rw [List.getLast?_map]
    cases h : (fns.filter (fun fn => fn.name == name)).getLast? <;> simp [h]
  · rw [List.all_eq_true]
    intro r hr
    obtain ⟨g, hg, hsome⟩ := List.mem_filterMap.mp hr
    rw [compareOneFunction_name hsome, compareOneFunction_demangled hsome]
    exact beq_self_eq_true _
  · rw [List.all_eq_true]
    intro r hr
    obtain ⟨g, hg, hsome⟩ := List.mem_filterMap.mp hr
    rw [processNewFileRecord_name hsome, processNewFileRecord_demangled hsome]
    exact beq_self_eq_true _
  · rw [List.all_eq_true]
    intro fu hfu
    obtain ⟨p, hp, hsome⟩ := List.mem_filterMap.mp hfu
    cases hl : lastFileWith report.files p with
    | none => simp [mkFileUncovered, hl] at hsome
    | some lastF =>
      cases hfst : firstFileWith report.files p with
      | none => simp [mkFileUncovered, hl, hfst] at hsome
      | some statsF =>
        simp only [mkFileUncovered, hl, hfst] at hsome
        split at hsome
        · exact absurd hsome (by simp)
        · cases hsome
          simp only [hl]
          rw [List.all_eq_true]
          intro fr hfr
          obtain ⟨g, hg, hgeq⟩ := List.mem_map.mp hfr
          cases hgeq
          simp [mkFunctionUncovered]

/-- Structure of the members of the uncovered report: each emitted file
record comes from a path whose last and first files exist in the input, and
its function records are built from those two files. -/
theorem mem_uncovered_structure {report : GcovrReport} {fu : FileUncovered}
    (hfu : fu ∈ (FindUncoveredLinesCore report).files) :
    ∃ lastF statsF,
      lastFileWith report.files fu.filePath = some lastF ∧
      firstFileWith report.files fu.filePath = some statsF ∧
      lastF ∈ report.files ∧ statsF ∈ report.files ∧
      fu.uncoveredFunctions = (uncoveredFuncKeys lastF.lines).map
        (mkFunctionUncovered statsF.lines lastF) := by
  obtain ⟨p, hp, hsome⟩ := List.mem_filterMap.mp hfu
  cases hl : lastFileWith report.files p with
  | none => simp [mkFileUncovered, hl] at hsome
  | some lastF =>
    cases hfst : firstFileWith report.files p with
    | none => simp [mkFileUncovered, hl, hfst] at hsome
    | some statsF =>
      simp only [mkFileUncovered, hl, hfst] at hsome
      split at hsome
      · exact absurd hsome (by simp)
      · cases hsome
        have hstats : statsF ∈ report.files := by
          have hfil := hfst
          unfold firstFileWith at hfil
          cases hc : report.files.filter (fun f => f.filePath == p) with
          | nil => rw [hc] at hfil; exact absurd hfil (by simp)
          | cons a t =>
            rw [hc] at hfil
            simp only [List.head?_cons, Option.some_inj] at hfil
            have hma : a ∈ report.files.filter (fun f => f.filePath == p) := by
              rw [hc]
              exact List.mem_cons_self a t
            exact hfil ▸ List.mem_of_mem_filter hma
        exact ⟨lastF, statsF, hl, hfst,
          List.mem_of_mem_filter (List.mem_of_getLast?_eq_some hl), hstats,
          rfl⟩

/-- A list of length at most one has equal first and last elements. -/
theorem getLast?_eq_head?_of_short {α : Type _} {l : List α}
    (h : l.length ≤ 1) : l.getLast? = l.head? := by
  match l with
  | [] => rfl
  | [a] => rfl
  | a :: b :: t => simp at h

/-- When the report's file paths are pairwise distinct, at most one file
carries a given path. -/
theorem filter_filePath_short {files : List File}
    (h : (files.map (fun f => f.filePath)).Nodup) (p : String) :
    (files.filter (fun f => f.filePath == p)).length ≤ 1 := by
  induction files with
  | nil => simp
  | cons a t ih =>
    simp only [List.map_cons, List.nodup_cons] at h
    obtain ⟨hna, hnt⟩ := h
    by_cases hap : a.filePath = p
    · have ht0 : t.filter (fun f => f.filePath == p) = [] := by
        rw [List.filter_eq_nil_iff]
        intro f hf hpf
        apply hna
        rw [hap]
        exact List.mem_map.mpr ⟨f, hf, by simpa using hpf⟩
      simp [List.filter_cons, hap, ht0]
    · simpa [List.filter_cons, hap] using ih hnt

/-- With pairwise-distinct file paths, the last and the first file with a
path coincide. -/
theorem lastFileWith_eq_first {files : List File}
    (h : (files.map (fun f => f.filePath)).Nodup) (p : String) :
    lastFileWith files p = firstFileWith files p :=
  getLast?_eq_head?_of_short (filter_filePath_short h p)

/-- With non-negative counts, the lines of a function split into the covered
ones and the count-zero ones. -/
theorem length_filter_count_split (l : List Line) (g : String)
    (h : ∀ x ∈ l, 0 ≤ x.count) :
    (l.filter (fun x => x.functionName == g)).length =
      (l.filter (fun x =>
        x.functionName == g && decide (0 < x.count))).length +
      (l.filter (fun x => x.functionName == g && x.count == 0)).length := by
  induction l with
  | nil => rfl
  | cons a t ih =>
    have ha := h a (List.mem_cons_self a t)
    have iht := ih (fun x hx => h x (List.mem_cons_of_mem a hx))
    by_cases hg : a.functionName = g
    · by_cases hpos : 0 < a.count
      · have hz : a.count ≠ 0 := by omega
        simp [List.filter_cons, hg, hpos, hz, iht]
        omega
      · have hz : a.count = 0 := by omega
        simp [List.filter_cons, hg, hpos, hz, iht]
        omega
    · simp [List.filter_cons, hg, iht]

/-- C2 (amended): for a report with pairwise-distinct file paths and
non-negative counts, every uncovered record satisfies
`TotalLines = CoveredLines + len(UncoveredLineNumbers)`.  The restriction to
distinct paths is forced: with a duplicated path the statistics come from
the first file with the path and the uncovered lines from the last. -/
theorem uncovered_counts_spec (report : GcovrReport)
    (hpaths : (report.files.map (fun f => f.filePath)).Nodup)
    (hcounts : ∀ file ∈ report.files, ∀ l ∈ file.lines, 0 ≤ l.count) :
    ∀ fu ∈ (FindUncoveredLinesCore report).files,
      ∀ fr ∈ fu.uncoveredFunctions,
        fr.totalLines = fr.coveredLines + fr.uncoveredLineNumbers.length := by
  intro fu hfu fr hfr
  obtain ⟨lastF, statsF, hl, hfst, hlm, _, hfns⟩ := mem_uncovered_structure hfu
  have hsame : statsF = lastF := by
    have hh := lastFileWith_eq_first hpaths fu.filePath
    rw [hl, hfst] at hh
    exact (Option.some_inj.mp hh).symm
  subst hsame
  rw [hfns] at hfr
  obtain ⟨g, hg, hgeq⟩ := List.mem_map.mp hfr
  cases hgeq
  have hcl : ∀ x ∈ statsF.lines, 0 ≤ x.count := hcounts statsF hlm
  simp only [mkFunctionUncovered]
  have hlen : (List.insertionSort (· ≤ ·)
      (uncoveredLinesFor statsF.lines g)).length =
      (statsF.lines.filter
        (fun l => l.functionName == g && l.count == 0)).length := by
    rw [List.length_insertionSort]
    simp [uncoveredLinesFor]
  rw [hlen]
  exact length_filter_count_split statsF.lines g hcl

/-- Witness for C2 (amended) at a one-file report with distinct paths and
non-negative counts. -/
theorem uncovered_counts_spec_witness :
    ((FindUncoveredLinesCore ⟨"0.5",
        [⟨"a.cpp", [⟨1, "f", 0⟩, ⟨2, "f", 3⟩], []⟩]⟩).files.flatMap
      (fun fu => fu.uncoveredFunctions)).all (fun fr =>
        fr.totalLines == fr.coveredLines + fr.uncoveredLineNumbers.length) =
      true := by
  have h := uncovered_counts_spec
    ⟨"0.5", [⟨"a.cpp", [⟨1, "f", 0⟩, ⟨2, "f", 3⟩], []⟩]⟩
    (by decide) (by decide)
  rw [List.all_eq_true]
  intro fr hfr
  obtain ⟨fu, hfu, hfr2⟩ := List.mem_flatMap.mp hfr
  simpa using h fu hfu fr hfr2

/-- Counterexample for C2 as stated: with a duplicated file path the
statistics come from the first file (`TotalLines = CoveredLines = 1`) while
the two uncovered line numbers come from the last, so
`TotalLines ≠ CoveredLines + len(UncoveredLineNumbers)`. -/
theorem uncovered_counts_counterexample :
    ((FindUncoveredLinesCore ⟨"0.5",
        [⟨"a", [⟨1, "f", 1⟩], []⟩,
         ⟨"a", [⟨1, "f", 0⟩, ⟨2, "f", 0⟩], []⟩]⟩).files.flatMap
      (fun fu => fu.uncoveredFunctions)).map (fun fr =>
        (fr.totalLines, fr.coveredLines, fr.uncoveredLineNumbers.length)) =
      [(1, 1, 2)] ∧ (1 : Nat) ≠ 1 + 2 :=
  ⟨by decide, by decide⟩

/-- With pairwise-distinct `(line number, function name)` pairs, the
uncovered line numbers of a function are duplicate-free. -/
theorem nodup_uncoveredLinesFor {lines : List Line} {g : String}
    (h : (lines.map (fun l => (l.lineNumber, l.functionName))).Nodup) :
    (uncoveredLinesFor lines g).Nodup := by
  unfold uncoveredLinesFor
  induction lines with
  | nil => simp
  | cons a t ih =>
    simp only [List.map_cons, List.nodup_cons] at h
    obtain ⟨hna, hnt⟩ := h
    by_cases hpa : (a.functionName == g && a.count == 0) = true
    · simp only [List.filter_cons, hpa, if_true]
      simp only [List.map_cons, List.nodup_cons]
      refine ⟨?_, ih hnt⟩
      intro hmem
      obtain ⟨x, hx, hxln⟩ := List.mem_map.mp hmem
      obtain ⟨hxt, hpx⟩ := List.mem_filter.mp hx
      apply hna
      refine List.mem_map.mpr ⟨x, hxt, ?_⟩
      simp only [Bool.and_eq_true, beq_iff_eq] at hpa hpx
      simp [hxln, hpx.1, hpa.1]
    · simp only [List.filter_cons, hpa, if_false]
      exact ih hnt

/-- A weakly sorted duplicate-free list is strictly sorted. -/
theorem sorted_lt_of_sorted_le_nodup {l : List Int}
    (hs : l.Sorted (· ≤ ·)) (hn : l.Nodup) : l.Sorted (· < ·) :=
  (List.Pairwise.and hs hn).imp (fun hab => lt_of_le_of_ne hab.1 hab.2)

/-- C4 (amended): every uncovered record's line-number list is sorted
non-decreasingly, and strictly ascending when the report's files have
pairwise-distinct `(line number, function name)` pairs.  Strictness in
general is refuted by a duplicated pair, which `sort.Ints` keeps. -/
theorem uncovered_sorted_spec (report : GcovrReport) :
    (∀ fu ∈ (FindUncoveredLinesCore report).files,
      ∀ fr ∈ fu.uncoveredFunctions, fr.uncoveredLineNumbers.Sorted (· ≤ ·))
    ∧ ((∀ file ∈ report.files,
          (file.lines.map (fun l => (l.lineNumber, l.functionName))).Nodup) →
        ∀ fu ∈ (FindUncoveredLinesCore report).files,
          ∀ fr ∈ fu.uncoveredFunctions,
            fr.uncoveredLineNumbers.Sorted (· < ·)) := by
  constructor
  · intro fu hfu fr hfr
    obtain ⟨lastF, statsF, hl, hfst, hlm, hsm, hfns⟩ :=
      mem_uncovered_structure hfu
    rw [hfns] at hfr
    obtain ⟨g, hg, hgeq⟩ := List.mem_map.mp hfr
    cases hgeq
    exact List.sorted_insertionSort _ _
  · intro hnd fu hfu fr hfr
    obtain ⟨lastF, statsF, hl, hfst, hlm, hsm, hfns⟩ :=
      mem_uncovered_structure hfu
    rw [hfns] at hfr
    obtain ⟨g, hg, hgeq⟩ := List.mem_map.mp hfr
    cases hgeq
    refine sorted_lt_of_sorted_le_nodup (List.sorted_insertionSort _ _) ?_
    exact (List.perm_insertionSort _ _).nodup_iff.mpr
      (nodup_uncoveredLinesFor (hnd lastF hlm))

/-- Witness for C4 (amended) at a one-file report with distinct pairs. -/
theorem uncovered_sorted_spec_witness :
    ((FindUncoveredLinesCore ⟨"0.5",
        [⟨"w.cpp", [⟨2, "f", 0⟩, ⟨1, "f", 0⟩], []⟩]⟩).files.flatMap
      (fun fu => fu.uncoveredFunctions)).Forall
      (fun fr => fr.uncoveredLineNumbers.Sorted (· < ·)) := by
  have h := (uncovered_sorted_spec
    ⟨"0.5", [⟨"w.cpp", [⟨2, "f", 0⟩, ⟨1, "f", 0⟩], []⟩]⟩).2 (by decide)
  rw [List.forall_iff_forall_mem]
  intro fr hfr
  obtain ⟨fu, hfu, hfr2⟩ := List.mem_flatMap.mp hfr
  exact h fu hfu fr hfr2

/-- Counterexample for C4 as stated: a file with a duplicated
`(line number, function name)` pair produces the uncovered list `[1, 1]`,
which is not strictly ascending. -/
theorem uncovered_sorted_counterexample :
    ((FindUncoveredLinesCore ⟨"0.5",
        [⟨"a", [⟨1, "f", 0⟩, ⟨1, "f", 0⟩], []⟩]⟩).files.flatMap
      (fun fu => fu.uncoveredFunctions)).map
      (fun fr => fr.uncoveredLineNumbers) = [[1, 1]]
    ∧ ¬ ([1, 1] : List Int).Sorted (· < ·) :=
  ⟨by decide, by decide⟩

/-- The file record emitted for a path carries that path. -/
theorem mkFileUncovered_path {files : List File} {p : String}
    {fu : FileUncovered} (h : mkFileUncovered files p = some fu) :
    fu.filePath = p := by
  unfold mkFileUncovered at h
  split at h
  · split at h
    · exact absurd h (by simp)
    · cases h
      rfl
  · exact absurd h (by simp)

/-- An emitted file record has at least one uncovered function. -/
theorem mkFileUncovered_nonempty {files : List File} {p : String}
    {fu : FileUncovered} (h : mkFileUncovered files p = some fu) :
    fu.uncoveredFunctions ≠ [] := by
  unfold mkFileUncovered at h
  split at h
  · split at h
    · exact absurd h (by simp)
    · cases h
      intro hc
      simp_all [List.isEmpty_iff]
  · exact absurd h (by simp)

/-- The emitted paths form a sublist of the path list they are drawn
from. -/
theorem uncovered_paths_sublist (files : List File) (l : List String) :
    ((l.filterMap (mkFileUncovered files)).map
      (fun fu => fu.filePath)).Sublist l := by
  induction l with
  | nil => simp
  | cons p t ih =>
    cases h : mkFileUncovered files p with
    | none =>
      simp only [List.filterMap_cons, h]
      exact ih.cons p
    | some fu =>
      simp only [List.filterMap_cons, h, List.map_cons, mkFileUncovered_path h]
      exact ih.cons₂ p

/-- The uncovered-function key set is nonempty iff some line has count
zero. -/
theorem uncoveredFuncKeys_ne_nil_iff {lines : List Line} :
    uncoveredFuncKeys lines ≠ [] ↔ ∃ l ∈ lines, l.count = 0 := by
  unfold uncoveredFuncKeys
  rw [Ne, List.dedup_eq_nil, List.map_eq_nil_iff, List.filter_eq_nil_iff]
  push_neg
  simp

/-- A path has a last file iff it occurs among the files' paths. -/
theorem lastFileWith_isSome_iff {files : List File} {p : String} :
    (∃ g, lastFileWith files p = some g) ↔
      p ∈ files.map (fun f => f.filePath) := by
  unfold lastFileWith
  constructor
  · rintro ⟨g, hg⟩
    have hm := List.mem_of_getLast?_eq_some hg
    have hp := (List.mem_filter.mp hm).2
    exact List.mem_map.mpr ⟨g, List.mem_of_mem_filter hm, by simpa using hp⟩
  · intro hp
    obtain ⟨f, hf, hfp⟩ := List.mem_map.mp hp
    have hne : files.filter (fun f => f.filePath == p) ≠ [] := by
      intro hc
      rw [List.filter_eq_nil_iff] at hc
      exact hc f hf (by simp [hfp])
    cases hc : (files.filter (fun f => f.filePath == p)).getLast? with
    | none => exact absurd (List.getLast?_eq_none_iff.mp hc) hne
    | some g => exact ⟨g, rfl⟩

/-- C5 (amended): the uncovered report's files are strictly ascending by
path and none has an empty function list; a path appears in the output iff
the LAST input file with that path has a count-zero line (for
pairwise-distinct paths this is the claim's condition); a report with no
files, or no count-zero line at all, yields zero files.  The claim's
"a File of the input appears iff it has a count-zero Line" is refuted by
duplicated paths, where only the last file with the path decides. -/
theorem uncovered_files_spec (report : GcovrReport) (p : String) :
    ((FindUncoveredLinesCore report).files.map
      (fun fu => fu.filePath)).Pairwise (· < ·)
    ∧ (∀ fu ∈ (FindUncoveredLinesCore report).files,
        fu.uncoveredFunctions ≠ [])
    ∧ (p ∈ (FindUncoveredLinesCore report).files.map (fun fu => fu.filePath) ↔
        ∃ lastF, lastFileWith report.files p = some lastF ∧
          ∃ l ∈ lastF.lines, l.count = 0)
    ∧ ((∀ file ∈ report.files, ∀ l ∈ file.lines, l.count ≠ 0) →
        (FindUncoveredLinesCore report).files = []) := by
  have hsorted : (List.insertionSort (· ≤ ·)
      ((report.files.map (fun f => f.filePath)).dedup)).Pairwise (· < ·) := by
    have hs := List.sorted_insertionSort (· ≤ ·)
      ((report.files.map (fun f => f.filePath)).dedup)
    have hnd : (List.insertionSort (· ≤ ·)
        ((report.files.map (fun f => f.filePath)).dedup)).Nodup :=
      (List.perm_insertionSort _ _).nodup_iff.mpr (List.nodup_dedup _)
    exact (List.Pairwise.and hs hnd).imp
      (fun hab => lt_of_le_of_ne hab.1 hab.2)
  refine ⟨?_, ?_, ?_, ?_⟩
  · exact List.Pairwise.sublist (uncovered_paths_sublist report.files _)
      hsorted
  · intro fu hfu
    obtain ⟨q, hq, hsome⟩ := List.mem_filterMap.mp hfu
    exact mkFileUncovered_nonempty hsome
  · constructor
    · intro hp
      obtain ⟨fu, hfu, hfp⟩ := List.mem_map.mp hp
      obtain ⟨q, hq, hsome⟩ := List.mem_filterMap.mp hfu
      have hqp : q = p := by rw [← hfp, mkFileUncovered_path hsome]
      subst hqp
      unfold mkFileUncovered at hsome
      split at hsome
      · next lastF statsF hl hfst =>
        split at hsome
        · exact absurd hsome (by simp)
        · next hni =>
          refine ⟨lastF, hl, ?_⟩
          rw [← uncoveredFuncKeys_ne_nil_iff]
          intro hc
          exact hni (by simp [hc])
      · exact absurd hsome (by simp)
    · rintro ⟨lastF, hl, hline⟩
      have hpmem : p ∈ report.files.map (fun f => f.filePath) :=
        lastFileWith_isSome_iff.mp ⟨lastF, hl⟩
      have hfst : ∃ statsF, firstFileWith report.files p = some statsF := by
        have hne : report.files.filter (fun f => f.filePath == p) ≠ [] := by
          obtain ⟨f, hf, hfp⟩ := List.mem_map.mp hpmem
          intro hc
          rw [List.filter_eq_nil_iff] at hc
          exact hc f hf (by simp [hfp])
        unfold firstFileWith
        cases hc : report.files.filter (fun f => f.filePath == p) with
        | nil => exact absurd hc hne
        | cons a t => exact ⟨a, by simp⟩
      obtain ⟨statsF, hfsteq⟩ := hfst
      have hkeys : uncoveredFuncKeys lastF.lines ≠ [] :=
        uncoveredFuncKeys_ne_nil_iff.mpr ⟨hline.choose, hline.choose_spec.1,
          hline.choose_spec.2⟩
      have hmk : mkFileUncovered report.files p = some
          { filePath := p
            uncoveredFunctions := (uncoveredFuncKeys lastF.lines).map
              (mkFunctionUncovered statsF.lines lastF) } := by
        simp only [mkFileUncovered, hl, hfsteq]
        rw [if_neg (by simpa [List.isEmpty_iff] using hkeys)]
      refine List.mem_map.mpr ⟨_, List.mem_filterMap.mpr ⟨p, ?_, hmk⟩, rfl⟩
      rw [(List.perm_insertionSort _ _).mem_iff, List.mem_dedup]
      exact hpmem
  · intro hall
    cases hout : (FindUncoveredLinesCore report).files with
    | nil => rfl
    | cons fu t =>
      exfalso
      have hfu : fu ∈ (FindUncoveredLinesCore report).files := by
        rw [hout]
        exact List.mem_cons_self fu t
      obtain ⟨q, hq, hsome⟩ := List.mem_filterMap.mp hfu
      unfold mkFileUncovered at hsome
      split at hsome
      · next lastF statsF hl hfsteq =>
        split at hsome
        · exact absurd hsome (by simp)
        · next hni =>
          have hkeys : uncoveredFuncKeys lastF.lines ≠ [] := by
            intro hc
            exact hni (by simp [hc])
          obtain ⟨l, hlm, hlc⟩ := uncoveredFuncKeys_ne_nil_iff.mp hkeys
          have hlf : lastF ∈ report.files :=
            List.mem_of_mem_filter (List.mem_of_getLast?_eq_some hl)
          exact hall lastF hlf l hlm hlc
      · exact absurd hsome (by simp)

/-- Witness for C5 (amended): a two-file report where only `b.cpp` has an
uncovered line; `b.cpp` appears in the output and an all-covered report
yields no files. -/
theorem uncovered_files_spec_witness :
    ("b.cpp" ∈ (FindUncoveredLinesCore ⟨"0.5",
        [⟨"b.cpp", [⟨1, "f", 0⟩], []⟩]⟩).files.map (fun fu => fu.filePath))
    ∧ (FindUncoveredLinesCore ⟨"0.5",
        [⟨"c.cpp", [⟨1, "f", 2⟩], []⟩]⟩).files = [] := by
  constructor
  · exact (uncovered_files_spec ⟨"0.5", [⟨"b.cpp", [⟨1, "f", 0⟩], []⟩]⟩
      "b.cpp").2.2.1.mpr ⟨⟨"b.cpp", [⟨1, "f", 0⟩], []⟩, by decide,
        ⟨1, "f", 0⟩, by decide, rfl⟩
  · exact (uncovered_files_spec ⟨"0.5", [⟨"c.cpp", [⟨1, "f", 2⟩], []⟩]⟩
      "c.cpp").2.2.2 (by decide)

/-- Counterexample for C5 as stated: the first input file of a
duplicated-path report has a count-zero line, yet the output has no files,
because the second file with the path resets the uncovered map. -/
theorem uncovered_files_counterexample :
    ((⟨"0.5", [⟨"a", [⟨1, "f", 0⟩], []⟩, ⟨"a", [⟨1, "f", 1⟩], []⟩]⟩ :
        GcovrReport).files.head?.map (fun f => f.lines.map
          (fun l => l.count))) = some [0]
    ∧ (FindUncoveredLinesCore ⟨"0.5",
        [⟨"a", [⟨1, "f", 0⟩], []⟩, ⟨"a", [⟨1, "f", 1⟩], []⟩]⟩).files = [] :=
  ⟨by decide, by decide⟩

/-- The content of the record of one function does not depend on the order
in which the inner line map is walked. -/
theorem compareOneFunction_congr_perm {baseFile newFile : File}
    {l1 l2 : List Int} (h : l1.Perm l2) (f : String) :
    (compareOneFunction baseFile newFile l1 f).map contentOf =
      (compareOneFunction baseFile newFile l2 f).map contentOf := by
  have hinc : (l1.filter (increasedPred baseFile.lines newFile.lines f)).Perm
      (l2.filter (increasedPred baseFile.lines newFile.lines f)) :=
    h.filter _
  have hold := (h.filter
    (fun ln => decide (0 < countAt baseFile.lines f ln))).length_eq
  have hnew := (h.filter
    (fun ln => decide (0 < countAt newFile.lines f ln))).length_eq
  simp only [compareOneFunction]
  by_cases hie :
      (l1.filter (increasedPred baseFile.lines newFile.lines f)).isEmpty
  · have hie2 :
        (l2.filter (increasedPred baseFile.lines newFile.lines f)).isEmpty := by
      rw [List.isEmpty_iff] at hie ⊢
      rw [hie] at hinc
      exact hinc.symm.eq_nil
    rw [if_pos hie, if_pos hie2]
  · have hie2 :
        ¬ (l2.filter (increasedPred baseFile.lines newFile.lines f)).isEmpty := by
      rw [List.isEmpty_iff] at hie ⊢
      intro hc
      rw [hc] at hinc
      exact hie hinc.eq_nil
    rw [if_neg hie, if_neg hie2]
    simp [contentOf, hinc.length_eq, hold, hnew,
      List.toFinset_eq_of_perm _ _ hinc]

/-- The record contents of `compareFunctions` are, as a multiset, the same
for every walk order of the two coverage maps. -/
theorem compareFunctionsWith_content_perm {baseFile newFile : File}
    {ko1 ko2 : List String} {lo1 lo2 : String → List Int}
    (hko1 : ko1.Perm (funcKeys newFile.lines))
    (hko2 : ko2.Perm (funcKeys newFile.lines))
    (hlo1 : ∀ f, (lo1 f).Perm (lineNumKeys newFile.lines f))
    (hlo2 : ∀ f, (lo2 f).Perm (lineNumKeys newFile.lines f)) :
    ((compareFunctionsWith baseFile newFile ko1 lo1).map contentOf).Perm
      ((compareFunctionsWith baseFile newFile ko2 lo2).map contentOf) := by
  unfold compareFunctionsWith
  rw [List.map_filterMap, List.map_filterMap]
  have hfun : (fun g =>
      (compareOneFunction baseFile newFile (lo1 g) g).map contentOf) =
      (fun g =>
        (compareOneFunction baseFile newFile (lo2 g) g).map contentOf) := by
    funext g
    exact compareOneFunction_congr_perm ((hlo1 g).trans (hlo2 g).symm) g
  rw [hfun]
  exact List.Perm.filterMap _ (hko1.trans hko2.symm)

/-- The records of `processNewFile` are, as a multiset, the same for every
walk order of the covered-function map; their line lists are already
deterministic (slice order). -/
theorem processNewFileWith_perm {file : File} {k1 k2 : List String}
    (h1 : k1.Perm (coveredFuncKeys file.lines))
    (h2 : k2.Perm (coveredFuncKeys file.lines)) :
    (processNewFileWith file k1).Perm (processNewFileWith file k2) :=
  List.Perm.filterMap _ (h1.trans h2.symm)

/-- C8 (amended): `ComputeCoverageIncrease` is deterministic only up to the
Go map walk orders: any two walk orders (permutations of the function-key
and line-key sets of each new file) produce the same multiset of record
contents, where a content fixes every field and the set of newly-covered
line numbers; the record list order and the order within each
`IncreasedLineNumbers` follow the walk and are not fixed by the code. -/
theorem computeIncreasesWith_content_perm (baseReport : GcovrReport)
    (v : String) (files : List File) (ko1 ko2 : File → List String)
    (lo1 lo2 : File → String → List Int) (pk1 pk2 : File → List String)
    (hko1 : ∀ nf, (ko1 nf).Perm (funcKeys nf.lines))
    (hko2 : ∀ nf, (ko2 nf).Perm (funcKeys nf.lines))
    (hlo1 : ∀ nf f, (lo1 nf f).Perm (lineNumKeys nf.lines f))
    (hlo2 : ∀ nf f, (lo2 nf f).Perm (lineNumKeys nf.lines f))
    (hpk1 : ∀ nf, (pk1 nf).Perm (coveredFuncKeys nf.lines))
    (hpk2 : ∀ nf, (pk2 nf).Perm (coveredFuncKeys nf.lines)) :
    ((computeIncreasesWith baseReport ⟨v, files⟩ ko1 lo1 pk1).map
      contentOf).Perm
      ((computeIncreasesWith baseReport ⟨v, files⟩ ko2 lo2 pk2).map
        contentOf) := by
  unfold computeIncreasesWith
  induction files with
  | nil => simp
  | cons nf t ih =>
    simp only [List.flatMap_cons, List.map_append]
    refine List.Perm.append ?_ ih
    cases hb : baseFileLookup baseReport.files nf.filePath with
    | none => exact (processNewFileWith_perm (hpk1 nf) (hpk2 nf)).map contentOf
    | some bf =>
        exact compareFunctionsWith_content_perm (hko1 nf) (hko2 nf)
          (hlo1 nf) (hlo2 nf)

/-- Witness for C8 (amended): the canonical walk orders against their
reversals on a concrete pair of reports. -/
theorem computeIncreasesWith_content_perm_witness :
    ((computeIncreasesWith ⟨"0.5", [⟨"d.cpp", [], []⟩]⟩
        ⟨"0.5", [⟨"d.cpp", [⟨1, "f", 1⟩, ⟨2, "g", 1⟩], []⟩]⟩
        (fun nf => funcKeys nf.lines) (fun nf => lineNumKeys nf.lines)
        (fun nf => coveredFuncKeys nf.lines)).map contentOf).Perm
      ((computeIncreasesWith ⟨"0.5", [⟨"d.cpp", [], []⟩]⟩
        ⟨"0.5", [⟨"d.cpp", [⟨1, "f", 1⟩, ⟨2, "g", 1⟩], []⟩]⟩
        (fun nf => (funcKeys nf.lines).reverse)
        (fun nf f => (lineNumKeys nf.lines f).reverse)
        (fun nf => (coveredFuncKeys nf.lines).reverse)).map contentOf) :=
  computeIncreasesWith_content_perm ⟨"0.5", [⟨"d.cpp", [], []⟩]⟩ "0.5"
    [⟨"d.cpp", [⟨1, "f", 1⟩, ⟨2, "g", 1⟩], []⟩] _ _ _ _ _ _
    (fun _ => List.Perm.refl _) (fun _ => List.reverse_perm _)
    (fun _ _ => List.Perm.refl _) (fun _ _ => List.reverse_perm _)
    (fun _ => List.Perm.refl _) (fun _ => List.reverse_perm _)

/-- Counterexample for C8 as stated: two valid walk orders of the function
map of the same input yield different result lists, so the code's output is
not a deterministic, explicitly ordered list. -/
theorem computeIncreases_order_counterexample :
    (["f", "g"] : List String).Perm
      (funcKeys (⟨"d.cpp", [⟨1, "f", 1⟩, ⟨2, "g", 1⟩], []⟩ : File).lines)
    ∧ (["g", "f"] : List String).Perm
      (funcKeys (⟨"d.cpp", [⟨1, "f", 1⟩, ⟨2, "g", 1⟩], []⟩ : File).lines)
    ∧ (computeIncreasesWith ⟨"0.5", [⟨"d.cpp", [], []⟩]⟩
        ⟨"0.5", [⟨"d.cpp", [⟨1, "f", 1⟩, ⟨2, "g", 1⟩], []⟩]⟩
        (fun _ => ["f", "g"]) (fun nf => lineNumKeys nf.lines)
        (fun nf => coveredFuncKeys nf.lines)).map
        (fun r => r.functionName) = ["f", "g"]
    ∧ (computeIncreasesWith ⟨"0.5", [⟨"d.cpp", [], []⟩]⟩
        ⟨"0.5", [⟨"d.cpp", [⟨1, "f", 1⟩, ⟨2, "g", 1⟩], []⟩]⟩
        (fun _ => ["g", "f"]) (fun nf => lineNumKeys nf.lines)
        (fun nf => coveredFuncKeys nf.lines)).map
        (fun r => r.functionName) = ["g", "f"]
    ∧ computeIncreasesWith ⟨"0.5", [⟨"d.cpp", [], []⟩]⟩
        ⟨"0.5", [⟨"d.cpp", [⟨1, "f", 1⟩, ⟨2, "g", 1⟩], []⟩]⟩
        (fun _ => ["f", "g"]) (fun nf => lineNumKeys nf.lines)
        (fun nf => coveredFuncKeys nf.lines) ≠
      computeIncreasesWith ⟨"0.5", [⟨"d.cpp", [], []⟩]⟩
        ⟨"0.5", [⟨"d.cpp", [⟨1, "f", 1⟩, ⟨2, "g", 1⟩], []⟩]⟩
        (fun _ => ["g", "f"]) (fun nf => lineNumKeys nf.lines)
        (fun nf => coveredFuncKeys nf.lines) :=
  ⟨by decide, by decide, by decide, by decide, by decide⟩

end Gcovr
